import Mathlib

/-!
Verification of the lala-core variable environment, diagnostics and
lattice-universe layer against its specification.

The definitions below are a shallow embedding of the C++ sources:
* `VarEnv` and its operations come from `env.hpp` (the `lala::VarEnv`
  class with snapshot/restore support);
* `PreB` comes from `b.hpp` (the two-valued "unknown" Boolean universe);
* `PreBInc` comes from `pre_zinc.hpp` (the bounded-progress Boolean);
* `ZIncUniverse` comes from `z.hpp` (integer chain universes);
* `IResult`/`Dual` come from `iresult.hpp`/`dual.hpp`.
-/

namespace LalaCore

/-- Type descriptor attached to a declaration (`Sort<Alloc>` in the source);
only compared for equality. -/
inductive SortTy where
  | bool
  | int
  | real
deriving DecidableEq, Repr

/-- Abstract variable: a pair of an abstract-domain id (`aty`) and a slot
(`vid`) inside that domain (`AVar` in the source). -/
structure AVar where
  aty : Nat
  vid : Nat
deriving DecidableEq, Repr

instance : Inhabited AVar := ⟨⟨0, 0⟩⟩

/-- Variable record: name, sort and the list of abstract variables of this
variable, one per abstract domain (`Variable<Alloc>` in the source). -/
@[ext]
structure Variable where
  name : String
  sort : SortTy
  avars : List AVar
deriving DecidableEq, Repr

instance : Inhabited Variable := ⟨⟨"", .bool, []⟩⟩

/-- `Variable::avar_of`: first abstract variable of this record whose domain
id equals `aty`. -/
def Variable.avar_of (v : Variable) (aty : Nat) : Option AVar :=
  v.avars.find? (fun av => av.aty == aty)

/-- The formula shapes `VarEnv` and the Boolean universes discriminate on:
existential declaration (`F::E`), occurrence of a logical variable
(`F::LV`), occurrence of an abstract variable (`F::V`), Boolean constant
(`F::B`), and every other shape.  A `none` abstract type models the
`UNTYPED` sentinel. -/
inductive Formula where
  | E (name : String) (sort : SortTy) (aty : Option Nat)
  | LV (name : String) (aty : Option Nat)
  | V (av : AVar)
  | B (b : Bool)
  | other
deriving DecidableEq, Repr

/-- The distinct interpretation errors `VarEnv` can produce, one constructor
per error message in the source. -/
inductive IErr where
  | untypedDeclaration
  | sortMismatch
  | undeclaredVariable
  | undeclaredInDomain
  | ambiguousOccurrence
  | undeclaredAbstractVariable
  | unsupportedFormulaShape
deriving DecidableEq, Repr

/-- The variable environment: the append-only sequence of variable records
(`lvars`) and the per-domain index rows (`avar2lvar`). -/
@[ext]
structure VarEnv where
  lvars : List Variable
  avar2lvar : List (List Nat)
deriving DecidableEq, Repr

namespace VarEnv

def empty : VarEnv := ⟨[], []⟩

/-- `VarEnv::num_vars`. -/
def num_vars (e : VarEnv) : Nat := e.lvars.length

/-- `VarEnv::num_abstract_doms`. -/
def num_abstract_doms (e : VarEnv) : Nat := e.avar2lvar.length

/-- `VarEnv::num_vars_in`: size of the index row of domain `aty`, `0` when
the row does not exist yet. -/
def num_vars_in (e : VarEnv) (aty : Nat) : Nat :=
  (e.avar2lvar.getD aty []).length

/-- `VarEnv::extends_abstract_dom` (the public `new_domain` operation):
appends one empty index row and returns its id. -/
def extends_abstract_dom (e : VarEnv) : VarEnv × Nat :=
  (⟨e.lvars, e.avar2lvar ++ [[]]⟩, e.avar2lvar.length)

/-- `VarEnv::extends_abstract_doms`: the loop `while(aty >= avar2lvar.size())
extends_abstract_dom()` appends exactly `aty + 1 - size` empty rows. -/
def extends_abstract_doms (e : VarEnv) (aty : Nat) : VarEnv :=
  ⟨e.lvars, e.avar2lvar ++ List.replicate (aty + 1 - e.avar2lvar.length) []⟩

/-- `VarEnv::lvar_index_of`: index of the first record with the given name. -/
def lvar_index_of_list (name : String) : List Variable → Option Nat
  | [] => none
  | v :: vs =>
    if v.name = name then some 0 else (lvar_index_of_list name vs).map (· + 1)

def lvar_index_of (e : VarEnv) (name : String) : Option Nat :=
  lvar_index_of_list name e.lvars

/-- `VarEnv::variable_of`: the record found through `lvar_index_of`. -/
def variable_of (e : VarEnv) (name : String) : Option Variable :=
  (e.lvar_index_of name).map (fun i => e.lvars.getD i default)

/-- `VarEnv::contains(const char*)`. -/
def containsName (e : VarEnv) (name : String) : Bool :=
  (e.variable_of name).isSome

/-- `VarEnv::contains(AVar)` for a typed abstract variable. -/
def containsAVar (e : VarEnv) (av : AVar) : Bool :=
  decide (av.aty < e.avar2lvar.length) &&
    decide (av.vid < (e.avar2lvar.getD av.aty []).length)

/-- `VarEnv::extends_vars`: grow the domain rows up to `aty`, then either
return the existing abstract variable of `name` in `aty`, or append a fresh
`AVar(aty, next_slot)` to the record (creating the record if needed) and to
the index row of `aty`. -/
def extends_vars (e : VarEnv) (aty : Nat) (name : String) (sort : SortTy) :
    VarEnv × AVar :=
  let e1 := e.extends_abstract_doms aty
  let row := e1.avar2lvar.getD aty []
  let avar : AVar := ⟨aty, row.length⟩
  match e1.lvar_index_of name with
  | some i =>
    let v := e1.lvars.getD i default
    match v.avar_of aty with
    | some av => (e1, av)
    | none =>
      (⟨e1.lvars.set i { v with avars := v.avars ++ [avar] },
        e1.avar2lvar.set aty (row ++ [i])⟩, avar)
  | none =>
    (⟨e1.lvars ++ [⟨name, sort, [avar]⟩],
      e1.avar2lvar.set aty (row ++ [e1.lvars.length])⟩, avar)

/-- `VarEnv::interpret_existential`. -/
def interpret_existential (e : VarEnv) (name : String) (sort : SortTy)
    (aty : Option Nat) : Except IErr AVar × VarEnv :=
  match aty with
  | none => (.error .untypedDeclaration, e)
  | some d =>
    match e.variable_of name with
    | some v =>
      if v.sort ≠ sort then (.error .sortMismatch, e)
      else
        let p := e.extends_vars d name sort
        (.ok p.2, p.1)
    | none =>
      let p := e.extends_vars d name sort
      (.ok p.2, p.1)

/-- `VarEnv::interpret_lv`. -/
def interpret_lv (e : VarEnv) (name : String) (aty : Option Nat) :
    Except IErr AVar :=
  match e.variable_of name with
  | none => .error .undeclaredVariable
  | some v =>
    match aty with
    | some d =>
      match v.avar_of d with
      | some av => .ok av
      | none => .error .undeclaredInDomain
    | none =>
      if v.avars.length = 1 then .ok (v.avars.getD 0 default)
      else .error .ambiguousOccurrence

/-- `VarEnv::interpret`: dispatch on the formula shape. -/
def interpret (e : VarEnv) (f : Formula) : Except IErr AVar × VarEnv :=
  match f with
  | .E name sort aty => e.interpret_existential name sort aty
  | .LV name aty => (e.interpret_lv name aty, e)
  | .V av =>
    (if e.containsAVar av then .ok av else .error .undeclaredAbstractVariable, e)
  | .B _ => (.error .unsupportedFormulaShape, e)
  | .other => (.error .unsupportedFormulaShape, e)

/-- `VarEnv::snapshot_type`: per-record handle-list lengths and per-domain
index lengths. -/
structure Snapshot where
  lvars_snap : List Nat
  avar2lvar_snap : List Nat
deriving DecidableEq, Repr

/-- `VarEnv::snapshot`. -/
def snapshot (e : VarEnv) : Snapshot :=
  ⟨e.lvars.map (fun v => v.avars.length), e.avar2lvar.map List.length⟩

/-- `battery::vector::resize` on a list: truncate, or pad with the default
element when growing. -/
def resizeList {α : Type} [Inhabited α] (l : List α) (n : Nat) : List α :=
  l.take n ++ List.replicate (n - l.length) default

/-- `VarEnv::restore`: pop the records and rows beyond the snapshot lengths,
then resize each surviving handle list and index row. -/
def restore (e : VarEnv) (s : Snapshot) : VarEnv :=
  ⟨List.zipWith (fun v n => { v with avars := resizeList v.avars n })
      (e.lvars.take s.lvars_snap.length) s.lvars_snap,
   List.zipWith (fun row n => resizeList row n)
      (e.avar2lvar.take s.avar2lvar_snap.length) s.avar2lvar_snap⟩

/-- The state-changing operations a caller can perform on an environment:
interpreting a formula or allocating a new domain (`snapshot` is pure and
`restore` is treated separately). -/
inductive Op where
  | interp (f : Formula)
  | newDomain
deriving DecidableEq, Repr

def applyOp (e : VarEnv) (op : Op) : VarEnv :=
  match op with
  | .interp f => (e.interpret f).2
  | .newDomain => e.extends_abstract_dom.1

def applyOps (e : VarEnv) (ops : List Op) : VarEnv :=
  ops.foldl applyOp e

end VarEnv

/-! ### Generic list facts used throughout -/

/-- `l₁` is an initial segment of `l₂`, phrased through `take`. -/
def ListPref {α : Type} (l1 l2 : List α) : Prop :=
  l1.length ≤ l2.length ∧ l2.take l1.length = l1

theorem listPref_refl {α : Type} (l : List α) : ListPref l l :=
  ⟨le_refl _, List.take_of_length_le (le_refl _)⟩

theorem listPref_trans {α : Type} {l1 l2 l3 : List α}
    (h1 : ListPref l1 l2) (h2 : ListPref l2 l3) : ListPref l1 l3 := by
  refine ⟨h1.1.trans h2.1, ?_⟩
  have h3 : l3.take l1.length = (l3.take l2.length).take l1.length := by
    rw [List.take_take, Nat.min_def, if_pos h1.1]
  rw [h3, h2.2, h1.2]

theorem listPref_append {α : Type} (l1 l2 : List α) : ListPref l1 (l1 ++ l2) :=
  ⟨by simp, List.take_left l1 l2⟩

theorem listPref_getD {α : Type} {l1 l2 : List α} (h : ListPref l1 l2)
    {i : Nat} (hi : i < l1.length) (d : α) : l2.getD i d = l1.getD i d := by
  have hi2 : i < l2.length := lt_of_lt_of_le hi h.1
  have h5 : (l2.take l1.length).getD i d = l1.getD i d := by rw [h.2]
  rw [← h5, List.getD_eq_getElem _ _ hi2,
    List.getD_eq_getElem _ _ (by simp [List.length_take]; omega)]
  exact (List.getElem_take _).symm

theorem getD_append_left {α : Type} (l1 l2 : List α) (d : α) {i : Nat}
    (h : i < l1.length) : (l1 ++ l2).getD i d = l1.getD i d := by
  rw [List.getD_eq_getElem _ _ (by simp; omega), List.getD_eq_getElem _ _ h,
    List.getElem_append_left h]

theorem getD_append_replicate_nil (l : List (List Nat)) (k d : Nat) :
    (l ++ List.replicate k ([] : List Nat)).getD d [] = l.getD d [] := by
  by_cases h : d < l.length
  · exact getD_append_left l _ [] h
  · push_neg at h
    rw [List.getD_eq_default _ _ h]
    by_cases h2 : d < l.length + k
    · rw [List.getD_eq_getElem _ _ (by simp [List.length_replicate]; omega),
        List.getElem_append_right (by omega)]
      exact List.getElem_replicate _ _
    · rw [List.getD_eq_default]
      simp [List.length_replicate]
      omega

namespace VarEnv

/-! ### Facts about `lvar_index_of_list` -/

theorem lvar_index_of_list_lt {name : String} :
    ∀ {l : List Variable} {i : Nat}, lvar_index_of_list name l = some i → i < l.length := by
  intro l
  induction l with
  | nil => intro i h; simp [lvar_index_of_list] at h
  | cons v vs ih =>
    intro i h
    rw [lvar_index_of_list] at h
    by_cases hv : v.name = name
    · rw [if_pos hv] at h
      cases h
      simp
    · rw [if_neg hv] at h
      rcases Option.map_eq_some'.mp h with ⟨j, hj, hij⟩
      have h2 := ih hj
      simp only [List.length_cons]
      omega

theorem lvar_index_of_list_name {name : String} :
    ∀ {l : List Variable} {i : Nat}, lvar_index_of_list name l = some i →
      (l.getD i default).name = name := by
  intro l
  induction l with
  | nil => intro i h; simp [lvar_index_of_list] at h
  | cons v vs ih =>
    intro i h
    rw [lvar_index_of_list] at h
    by_cases hv : v.name = name
    · rw [if_pos hv] at h
      cases h
      simpa using hv
    · rw [if_neg hv] at h
      rcases Option.map_eq_some'.mp h with ⟨j, hj, hij⟩
      subst hij
      rw [List.getD_cons_succ]
      exact ih hj

theorem lvar_index_of_list_set {name : String} :
    ∀ {l : List Variable} {i : Nat} {v2 : Variable},
      (l.getD i default).name = v2.name →
      lvar_index_of_list name (l.set i v2) = lvar_index_of_list name l := by
  intro l
  induction l with
  | nil => intro i v2 _; simp
  | cons v vs ih =>
    intro i v2 hnm
    cases i with
    | zero =>
      rw [List.getD_cons_zero] at hnm
      simp only [List.set_cons_zero]
      rw [lvar_index_of_list, lvar_index_of_list, hnm]
    | succ j =>
      rw [List.getD_cons_succ] at hnm
      simp only [List.set_cons_succ]
      rw [lvar_index_of_list, lvar_index_of_list, ih hnm]

theorem lvar_index_of_list_append_some {name : String} :
    ∀ {l : List Variable} {l2 : List Variable} {i : Nat},
      lvar_index_of_list name l = some i →
      lvar_index_of_list name (l ++ l2) = some i := by
  intro l
  induction l with
  | nil => intro l2 i h; simp [lvar_index_of_list] at h
  | cons v vs ih =>
    intro l2 i h
    rw [lvar_index_of_list] at h
    rw [List.cons_append, lvar_index_of_list]
    by_cases hv : v.name = name
    · rw [if_pos hv] at h ⊢; exact h
    · rw [if_neg hv] at h ⊢
      rcases Option.map_eq_some'.mp h with ⟨j, hj, hij⟩
      rw [ih hj]
      simpa using hij

theorem lvar_index_of_list_append_none {name : String} {v2 : Variable} :
    ∀ {l : List Variable}, lvar_index_of_list name l = none → v2.name = name →
      lvar_index_of_list name (l ++ [v2]) = some l.length := by
  intro l
  induction l with
  | nil =>
    intro _ hv
    simp only [List.nil_append, List.length_nil]
    rw [lvar_index_of_list, if_pos hv]
  | cons v vs ih =>
    intro h hv
    rw [lvar_index_of_list] at h
    by_cases hn : v.name = name
    · rw [if_pos hn] at h; cases h
    · rw [if_neg hn] at h
      rw [List.cons_append, lvar_index_of_list, if_neg hn,
        ih (by simpa using h) hv]
      simp

/-! ### The append-only evolution order on environments -/

/-- `EnvExtends e e'` says that `e'` was obtained from `e` by the append-only
discipline of `VarEnv`: records are only appended, each surviving record keeps
its name and sort and only appends handles, and index rows are only appended. -/
structure EnvExtends (e e2 : VarEnv) : Prop where
  lvars_le : e.num_vars ≤ e2.num_vars
  doms_le : e.num_abstract_doms ≤ e2.num_abstract_doms
  lvars_ext : ∀ i, i < e.num_vars →
    (e2.lvars.getD i default).name = (e.lvars.getD i default).name ∧
    (e2.lvars.getD i default).sort = (e.lvars.getD i default).sort ∧
    ListPref (e.lvars.getD i default).avars (e2.lvars.getD i default).avars
  rows_ext : ∀ d, ListPref (e.avar2lvar.getD d []) (e2.avar2lvar.getD d [])

theorem envExtends_refl (e : VarEnv) : EnvExtends e e :=
  ⟨le_refl _, le_refl _, fun _ _ => ⟨rfl, rfl, listPref_refl _⟩,
    fun _ => listPref_refl _⟩

theorem envExtends_trans {e1 e2 e3 : VarEnv}
    (h1 : EnvExtends e1 e2) (h2 : EnvExtends e2 e3) : EnvExtends e1 e3 := by
  refine ⟨h1.lvars_le.trans h2.lvars_le, h1.doms_le.trans h2.doms_le, ?_, ?_⟩
  · intro i hi
    have hi2 : i < e2.num_vars := lt_of_lt_of_le hi h1.lvars_le
    obtain ⟨n1, s1, p1⟩ := h1.lvars_ext i hi
    obtain ⟨n2, s2, p2⟩ := h2.lvars_ext i hi2
    exact ⟨n2.trans n1, s2.trans s1, listPref_trans p1 p2⟩
  · intro d
    exact listPref_trans (h1.rows_ext d) (h2.rows_ext d)

theorem envExtends_extends_abstract_doms (e : VarEnv) (aty : Nat) :
    EnvExtends e (e.extends_abstract_doms aty) := by
  refine ⟨le_refl _, by simp [VarEnv.num_abstract_doms, VarEnv.extends_abstract_doms], ?_, ?_⟩
  · intro i _
    exact ⟨rfl, rfl, listPref_refl _⟩
  · intro d
    rw [show (e.extends_abstract_doms aty).avar2lvar
        = e.avar2lvar ++ List.replicate (aty + 1 - e.avar2lvar.length) [] from rfl,
      getD_append_replicate_nil]
    exact listPref_refl _

theorem envExtends_extends_abstract_dom (e : VarEnv) :
    EnvExtends e e.extends_abstract_dom.1 := by
  refine ⟨le_refl _, by simp [VarEnv.num_abstract_doms, VarEnv.extends_abstract_dom], ?_, ?_⟩
  · intro i _
    exact ⟨rfl, rfl, listPref_refl _⟩
  · intro d
    rw [show e.extends_abstract_dom.1.avar2lvar
        = e.avar2lvar ++ List.replicate 1 [] from rfl,
      getD_append_replicate_nil]
    exact listPref_refl _

/-- After `extends_abstract_doms aty`, the row of `aty` exists. -/
theorem extends_abstract_doms_aty_lt (e : VarEnv) (aty : Nat) :
    aty < (e.extends_abstract_doms aty).num_abstract_doms := by
  simp [VarEnv.extends_abstract_doms, VarEnv.num_abstract_doms]
  omega

/-- `extends_abstract_doms` changes no row contents (seen through `getD`). -/
theorem extends_abstract_doms_getD (e : VarEnv) (aty d : Nat) :
    (e.extends_abstract_doms aty).avar2lvar.getD d [] = e.avar2lvar.getD d [] :=
  getD_append_replicate_nil _ _ _

theorem extends_abstract_doms_lvars (e : VarEnv) (aty : Nat) :
    (e.extends_abstract_doms aty).lvars = e.lvars := rfl

/-- When the row already exists, `extends_abstract_doms` is the identity. -/
theorem extends_abstract_doms_of_lt (e : VarEnv) (aty : Nat)
    (h : aty < e.num_abstract_doms) : e.extends_abstract_doms aty = e := by
  have h2 : aty + 1 - e.avar2lvar.length = 0 := by
    simp only [VarEnv.num_abstract_doms] at h
    omega
  unfold VarEnv.extends_abstract_doms
  rw [h2]
  simp

/-- `getD` view of updating one row. -/
theorem rows_set_getD (rows : List (List Nat)) (aty : Nat) (r2 : List Nat)
    (haty : aty < rows.length) (d : Nat) :
    (rows.set aty r2).getD d [] = if aty = d then r2 else rows.getD d [] := by
  by_cases hd : aty = d
  · subst hd
    rw [if_pos rfl, List.getD_eq_getElem _ _ (by simpa using haty),
      List.getElem_set_self]
  · rw [if_neg hd]
    by_cases h2 : d < rows.length
    · rw [List.getD_eq_getElem _ _ (by simpa using h2),
        List.getElem_set_ne hd, List.getD_eq_getElem _ _ h2]
    · push_neg at h2
      rw [List.getD_eq_default _ _ (by simpa using h2),
        List.getD_eq_default _ _ h2]

/-- `getD` view of updating one record. -/
theorem lvars_set_getD (l : List Variable) (i : Nat) (v2 : Variable)
    (hi : i < l.length) (j : Nat) :
    (l.set i v2).getD j default = if i = j then v2 else l.getD j default := by
  by_cases hj : i = j
  · subst hj
    rw [if_pos rfl, List.getD_eq_getElem _ _ (by simpa using hi),
      List.getElem_set_self]
  · rw [if_neg hj]
    by_cases h2 : j < l.length
    · rw [List.getD_eq_getElem _ _ (by simpa using h2),
        List.getElem_set_ne hj, List.getD_eq_getElem _ _ h2]
    · push_neg at h2
      rw [List.getD_eq_default _ _ (by simpa using h2),
        List.getD_eq_default _ _ h2]

/-- Environment extension produced by pushing a handle onto record `i` and
its index onto row `aty` (the redeclaration arm of `extends_vars`). -/
theorem envExtends_set_push (e1 : VarEnv) (i aty : Nat) (avar : AVar)
    (hi : i < e1.lvars.length) (haty : aty < e1.avar2lvar.length) :
    EnvExtends e1
      ⟨e1.lvars.set i { e1.lvars.getD i default with
          avars := (e1.lvars.getD i default).avars ++ [avar] },
        e1.avar2lvar.set aty (e1.avar2lvar.getD aty [] ++ [i])⟩ := by
  refine ⟨by simp [VarEnv.num_vars], by simp [VarEnv.num_abstract_doms], ?_, ?_⟩
  · intro j hj
    show ((e1.lvars.set i _).getD j default).name = _ ∧
      ((e1.lvars.set i _).getD j default).sort = _ ∧
      ListPref _ ((e1.lvars.set i _).getD j default).avars
    rw [lvars_set_getD _ _ _ hi j]
    by_cases hij : i = j
    · subst hij
      rw [if_pos rfl]
      exact ⟨rfl, rfl, listPref_append _ _⟩
    · rw [if_neg hij]
      exact ⟨rfl, rfl, listPref_refl _⟩
  · intro d
    show ListPref _ ((e1.avar2lvar.set aty _).getD d [])
    rw [rows_set_getD _ _ _ haty d]
    by_cases hd : aty = d
    · subst hd
      rw [if_pos rfl]
      exact listPref_append _ _
    · rw [if_neg hd]
      exact listPref_refl _

/-- Environment extension produced by appending a fresh record and pushing
its index onto row `aty` (the fresh-name arm of `extends_vars`). -/
theorem envExtends_append_push (e1 : VarEnv) (aty : Nat) (name : String)
    (sort : SortTy) (avar : AVar) (haty : aty < e1.avar2lvar.length) :
    EnvExtends e1
      ⟨e1.lvars ++ [⟨name, sort, [avar]⟩],
        e1.avar2lvar.set aty (e1.avar2lvar.getD aty [] ++ [e1.lvars.length])⟩ := by
  refine ⟨by simp [VarEnv.num_vars], by simp [VarEnv.num_abstract_doms], ?_, ?_⟩
  · intro j hj
    show ((e1.lvars ++ _).getD j default).name = _ ∧
      ((e1.lvars ++ _).getD j default).sort = _ ∧
      ListPref _ ((e1.lvars ++ _).getD j default).avars
    rw [getD_append_left _ _ _ hj]
    exact ⟨rfl, rfl, listPref_refl _⟩
  · intro d
    show ListPref _ ((e1.avar2lvar.set aty _).getD d [])
    rw [rows_set_getD _ _ _ haty d]
    by_cases hd : aty = d
    · subst hd
      rw [if_pos rfl]
      exact listPref_append _ _
    · rw [if_neg hd]
      exact listPref_refl _

theorem envExtends_extends_vars (e : VarEnv) (aty : Nat) (name : String)
    (sort : SortTy) : EnvExtends e (e.extends_vars aty name sort).1 := by
  refine envExtends_trans (envExtends_extends_abstract_doms e aty) ?_
  simp only [VarEnv.extends_vars]
  cases h : (e.extends_abstract_doms aty).lvar_index_of name with
  | some i =>
    cases h2 : ((e.extends_abstract_doms aty).lvars.getD i default).avar_of aty with
    | some av =>
      simp only [h, h2]
      exact envExtends_refl _
    | none =>
      simp only [h, h2]
      exact envExtends_set_push _ i aty _ (lvar_index_of_list_lt h)
        (extends_abstract_doms_aty_lt e aty)
  | none =>
    simp only [h]
    exact envExtends_append_push _ aty name sort _
      (extends_abstract_doms_aty_lt e aty)

theorem envExtends_interpret_existential (e : VarEnv) (name : String)
    (sort : SortTy) (aty : Option Nat) :
    EnvExtends e (e.interpret_existential name sort aty).2 := by
  unfold VarEnv.interpret_existential
  cases aty with
  | none => exact envExtends_refl e
  | some d =>
    cases h : e.variable_of name with
    | some v =>
      simp only [h]
      by_cases hs : v.sort ≠ sort
      · rw [if_pos hs]
        exact envExtends_refl e
      · rw [if_neg hs]
        exact envExtends_extends_vars e d name sort
    | none =>
      simp only [h]
      exact envExtends_extends_vars e d name sort

theorem envExtends_applyOp (e : VarEnv) (op : VarEnv.Op) :
    EnvExtends e (e.applyOp op) := by
  cases op with
  | interp f =>
    cases f with
    | E name sort aty => exact envExtends_interpret_existential e name sort aty
    | LV name aty => exact envExtends_refl e
    | V av =>
      show EnvExtends e (if e.containsAVar av then _ else _, e).2
      split <;> exact envExtends_refl e
    | B b => exact envExtends_refl e
    | other => exact envExtends_refl e
  | newDomain => exact envExtends_extends_abstract_dom e

theorem envExtends_applyOps (e : VarEnv) (ops : List VarEnv.Op) :
    EnvExtends e (e.applyOps ops) := by
  induction ops generalizing e with
  | nil => exact envExtends_refl e
  | cons op ops ih =>
    rw [VarEnv.applyOps, List.foldl_cons]
    exact envExtends_trans (envExtends_applyOp e op) (ih (e.applyOp op))

/-! ### Restore undoes any extension -/

theorem resize_of_listPref {α : Type} [Inhabited α] {l1 l2 : List α}
    (h : ListPref l1 l2) : VarEnv.resizeList l2 l1.length = l1 := by
  unfold VarEnv.resizeList
  rw [h.2, Nat.sub_eq_zero_of_le h.1]
  simp

theorem restore_rows_eq : ∀ (l1 l2 : List (List Nat)),
    l1.length ≤ l2.length →
    (∀ i, ListPref (l1.getD i []) (l2.getD i [])) →
    List.zipWith (fun row k => VarEnv.resizeList row k)
      (l2.take (l1.map List.length).length) (l1.map List.length) = l1 := by
  intro l1
  induction l1 with
  | nil => intro l2 _ _; simp
  | cons a t1 ih =>
    intro l2 hlen hpref
    cases l2 with
    | nil => simp at hlen
    | cons b t2 =>
      simp only [List.length_cons] at hlen
      rw [List.map_cons, List.length_cons, List.take_succ_cons,
        List.zipWith_cons_cons]
      have hhead : VarEnv.resizeList b a.length = a := by
        have h0 := hpref 0
        rw [List.getD_cons_zero, List.getD_cons_zero] at h0
        exact resize_of_listPref h0
      rw [hhead, ih t2 (by omega) (fun i => by
        have hs := hpref (i + 1)
        rw [List.getD_cons_succ, List.getD_cons_succ] at hs
        exact hs)]

theorem restore_lvars_eq : ∀ (l1 l2 : List Variable),
    l1.length ≤ l2.length →
    (∀ i, i < l1.length →
      (l2.getD i default).name = (l1.getD i default).name ∧
      (l2.getD i default).sort = (l1.getD i default).sort ∧
      ListPref (l1.getD i default).avars (l2.getD i default).avars) →
    List.zipWith (fun v k => { v with avars := VarEnv.resizeList v.avars k })
      (l2.take (l1.map (fun v => v.avars.length)).length)
      (l1.map (fun v => v.avars.length)) = l1 := by
  intro l1
  induction l1 with
  | nil => intro l2 _ _; simp
  | cons a t1 ih =>
    intro l2 hlen hext
    cases l2 with
    | nil => simp at hlen
    | cons b t2 =>
      simp only [List.length_cons] at hlen
      rw [List.map_cons, List.length_cons, List.take_succ_cons,
        List.zipWith_cons_cons]
      have h0 := hext 0 (by simp)
      rw [List.getD_cons_zero, List.getD_cons_zero] at h0
      have hhead : { b with avars := VarEnv.resizeList b.avars a.avars.length } = a := by
        ext : 1
        · exact h0.1
        · exact h0.2.1
        · exact resize_of_listPref h0.2.2
      rw [hhead, ih t2 (by omega) (fun i hi => by
        have hs := hext (i + 1) (by simp only [List.length_cons]; omega)
        rw [List.getD_cons_succ, List.getD_cons_succ] at hs
        exact hs)]

theorem restore_snapshot_eq {e e2 : VarEnv} (h : EnvExtends e e2) :
    e2.restore e.snapshot = e := by
  ext1
  · exact restore_lvars_eq e.lvars e2.lvars h.lvars_le h.lvars_ext
  · exact restore_rows_eq e.avar2lvar e2.avar2lvar h.doms_le h.rows_ext

/-- C1: for every environment, every sequence of interpret and new-domain
calls performed after taking `snap = snapshot()` is undone exactly by
`restore snap`: `num_vars`, `num_vars_in d` for every domain `d`, and
`variable_of name` (hence the sort and handle list of every name known at
snapshot time) equal their snapshot-time values. -/
theorem C1_snapshot_restore_inverse (e : VarEnv) (ops : List VarEnv.Op) :
    ((e.applyOps ops).restore e.snapshot).num_vars = e.num_vars ∧
    (∀ d, ((e.applyOps ops).restore e.snapshot).num_vars_in d = e.num_vars_in d) ∧
    (∀ name, ((e.applyOps ops).restore e.snapshot).variable_of name
      = e.variable_of name) := by
  have h : (e.applyOps ops).restore e.snapshot = e :=
    restore_snapshot_eq (envExtends_applyOps e ops)
  rw [h]
  exact ⟨rfl, fun _ => rfl, fun _ => rfl⟩

/-! ### The per-domain index invariant -/

/-- The index invariant: every index entry `avar2lvar[d][slot]` names a live
record whose handle list contains the handle `(d, slot)`. -/
def EnvInv (e : VarEnv) : Prop :=
  ∀ d slot, slot < e.num_vars_in d →
    (e.avar2lvar.getD d []).getD slot 0 < e.num_vars ∧
    (⟨d, slot⟩ : AVar) ∈
      (e.lvars.getD ((e.avar2lvar.getD d []).getD slot 0) default).avars

/-- Environments reachable from the empty environment through interpret and
new-domain calls, and restores to a snapshot captured at an earlier point of
the same history (the situation in which `restore`'s size precondition
holds). -/
inductive Reach : VarEnv → Prop where
  | empty : Reach VarEnv.empty
  | step {e : VarEnv} (op : VarEnv.Op) : Reach e → Reach (e.applyOp op)
  | restoreStep {e e2 : VarEnv} : Reach e → Reach e2 → EnvExtends e e2 →
      Reach (e2.restore e.snapshot)

theorem envInv_empty : EnvInv VarEnv.empty := by
  intro d slot hs
  simp [VarEnv.num_vars_in, VarEnv.empty] at hs

theorem envInv_extends_abstract_doms {e : VarEnv} (aty : Nat) (h : EnvInv e) :
    EnvInv (e.extends_abstract_doms aty) := by
  intro d slot hs
  have hrow := extends_abstract_doms_getD e aty d
  rw [VarEnv.num_vars_in, hrow] at hs
  rw [hrow]
  exact h d slot hs

theorem envInv_extends_abstract_dom {e : VarEnv} (h : EnvInv e) :
    EnvInv e.extends_abstract_dom.1 := by
  intro d slot hs
  have hrow : e.extends_abstract_dom.1.avar2lvar.getD d [] = e.avar2lvar.getD d [] := by
    rw [show e.extends_abstract_dom.1.avar2lvar
        = e.avar2lvar ++ List.replicate 1 [] from rfl, getD_append_replicate_nil]
  rw [VarEnv.num_vars_in, hrow] at hs
  rw [hrow]
  exact h d slot hs

theorem getD_append_length {α : Type} (l : List α) (x d : α) :
    (l ++ [x]).getD l.length d = x := by
  rw [List.getD_eq_getElem _ _ (by simp), List.getElem_append_right (le_refl _)]
  simp

@[simp] theorem mk_lvars (a : List Variable) (b : List (List Nat)) :
    (VarEnv.mk a b).lvars = a := rfl

@[simp] theorem mk_avar2lvar (a : List Variable) (b : List (List Nat)) :
    (VarEnv.mk a b).avar2lvar = b := rfl

theorem envInv_set_push (lv : List Variable) (rows : List (List Nat))
    (i aty : Nat) (hi : i < lv.length) (haty : aty < rows.length)
    (hinv : EnvInv ⟨lv, rows⟩) :
    EnvInv ⟨lv.set i { lv.getD i default with
        avars := (lv.getD i default).avars
          ++ [⟨aty, (rows.getD aty []).length⟩] },
      rows.set aty (rows.getD aty [] ++ [i])⟩ := by
  intro d slot hs
  simp only [VarEnv.num_vars_in, VarEnv.num_vars, mk_lvars, mk_avar2lvar,
    List.length_set] at hs ⊢
  rw [rows_set_getD _ _ _ haty d] at hs ⊢
  by_cases hd : aty = d
  · subst hd
    rw [if_pos rfl] at hs ⊢
    rw [List.length_append, List.length_cons, List.length_nil] at hs
    by_cases hslot : slot < (rows.getD aty []).length
    · rw [getD_append_left _ _ _ hslot]
      obtain ⟨hlt, hmem⟩ := hinv aty slot (by
        simp only [VarEnv.num_vars_in, mk_avar2lvar]; exact hslot)
      simp only [VarEnv.num_vars, mk_lvars] at hlt
      refine ⟨hlt, ?_⟩
      rw [lvars_set_getD _ _ _ hi]
      simp only [VarEnv.num_vars, mk_lvars] at hmem
      by_cases hidx : i = (rows.getD aty []).getD slot 0
      · rw [if_pos hidx]
        exact List.mem_append_left _ (by rw [hidx]; exact hmem)
      · rw [if_neg hidx]
        exact hmem
    · have hslot2 : slot = (rows.getD aty []).length := by omega
      subst hslot2
      rw [getD_append_length]
      refine ⟨hi, ?_⟩
      rw [lvars_set_getD _ _ _ hi, if_pos rfl]
      exact List.mem_append_right _ (by simp)
  · rw [if_neg hd] at hs ⊢
    obtain ⟨hlt, hmem⟩ := hinv d slot (by
      simp only [VarEnv.num_vars_in, mk_avar2lvar]; exact hs)
    simp only [VarEnv.num_vars, mk_lvars] at hlt hmem
    refine ⟨hlt, ?_⟩
    rw [lvars_set_getD _ _ _ hi]
    by_cases hidx : i = (rows.getD d []).getD slot 0
    · rw [if_pos hidx]
      exact List.mem_append_left _ (by rw [hidx]; exact hmem)
    · rw [if_neg hidx]
      exact hmem

theorem envInv_append_push (lv : List Variable) (rows : List (List Nat))
    (aty : Nat) (name : String) (sort : SortTy)
    (haty : aty < rows.length) (hinv : EnvInv ⟨lv, rows⟩) :
    EnvInv ⟨lv ++ [⟨name, sort, [⟨aty, (rows.getD aty []).length⟩]⟩],
      rows.set aty (rows.getD aty [] ++ [lv.length])⟩ := by
  intro d slot hs
  simp only [VarEnv.num_vars_in, VarEnv.num_vars, mk_lvars, mk_avar2lvar,
    List.length_append, List.length_cons, List.length_nil] at hs ⊢
  rw [rows_set_getD _ _ _ haty d] at hs ⊢
  by_cases hd : aty = d
  · subst hd
    rw [if_pos rfl] at hs ⊢
    rw [List.length_append, List.length_cons, List.length_nil] at hs
    by_cases hslot : slot < (rows.getD aty []).length
    · rw [getD_append_left _ _ _ hslot]
      obtain ⟨hlt, hmem⟩ := hinv aty slot (by
        simp only [VarEnv.num_vars_in, mk_avar2lvar]; exact hslot)
      simp only [VarEnv.num_vars, mk_lvars] at hlt hmem
      refine ⟨by omega, ?_⟩
      rw [getD_append_left _ _ _ hlt]
      exact hmem
    · have hslot2 : slot = (rows.getD aty []).length := by omega
      subst hslot2
      rw [getD_append_length]
      refine ⟨by omega, ?_⟩
      rw [getD_append_length]
      simp
  · rw [if_neg hd] at hs ⊢
    obtain ⟨hlt, hmem⟩ := hinv d slot (by
      simp only [VarEnv.num_vars_in, mk_avar2lvar]; exact hs)
    simp only [VarEnv.num_vars, mk_lvars] at hlt hmem
    refine ⟨by omega, ?_⟩
    rw [getD_append_left _ _ _ hlt]
    exact hmem

theorem envInv_extends_vars {e : VarEnv} (aty : Nat) (name : String)
    (sort : SortTy) (h : EnvInv e) : EnvInv (e.extends_vars aty name sort).1 := by
  have h1 : EnvInv (e.extends_abstract_doms aty) := envInv_extends_abstract_doms aty h
  simp only [VarEnv.extends_vars]
  cases hidx : (e.extends_abstract_doms aty).lvar_index_of name with
  | some i =>
    cases h2 : ((e.extends_abstract_doms aty).lvars.getD i default).avar_of aty with
    | some av =>
      simp only [hidx, h2]
      exact h1
    | none =>
      simp only [hidx, h2]
      exact envInv_set_push _ _ i aty (lvar_index_of_list_lt hidx)
        (extends_abstract_doms_aty_lt e aty) h1
  | none =>
    simp only [hidx]
    exact envInv_append_push _ _ aty name sort
      (extends_abstract_doms_aty_lt e aty) h1

theorem envInv_interpret_existential {e : VarEnv} (name : String)
    (sort : SortTy) (aty : Option Nat) (h : EnvInv e) :
    EnvInv (e.interpret_existential name sort aty).2 := by
  unfold VarEnv.interpret_existential
  cases aty with
  | none => exact h
  | some d =>
    cases hv : e.variable_of name with
    | some v =>
      simp only [hv]
      by_cases hs : v.sort ≠ sort
      · rw [if_pos hs]
        exact h
      · rw [if_neg hs]
        exact envInv_extends_vars d name sort h
    | none =>
      simp only [hv]
      exact envInv_extends_vars d name sort h

theorem envInv_applyOp {e : VarEnv} (op : VarEnv.Op) (h : EnvInv e) :
    EnvInv (e.applyOp op) := by
  cases op with
  | interp f =>
    cases f with
    | E name sort aty => exact envInv_interpret_existential name sort aty h
    | LV name aty => exact h
    | V av => exact h
    | B b => exact h
    | other => exact h
  | newDomain => exact envInv_extends_abstract_dom h

theorem reach_envInv {e : VarEnv} (h : Reach e) : EnvInv e := by
  induction h with
  | empty => exact envInv_empty
  | step op _ ih => exact envInv_applyOp op ih
  | restoreStep _ _ hext ih1 _ =>
    rw [restore_snapshot_eq hext]
    exact ih1

/-- C3: after every sequence of interpret, new-domain, snapshot and restore
operations starting from the empty environment, for every domain `d` and
every slot below that domain's index length, `avar2lvar[d][slot]` is the
index of a live variable record whose handle list contains `(d, slot)`. -/
theorem C3_index_invariant (e : VarEnv) (h : Reach e) (d slot : Nat)
    (hs : slot < e.num_vars_in d) :
    (e.avar2lvar.getD d []).getD slot 0 < e.num_vars ∧
    (⟨d, slot⟩ : AVar) ∈
      (e.lvars.getD ((e.avar2lvar.getD d []).getD slot 0) default).avars :=
  reach_envInv h d slot hs

/-- Witness for C3 at the environment obtained by declaring `x` in a fresh
domain `0`, with `d = 0`, `slot = 0`. -/
theorem C3_index_invariant_witness :
    (0 < (VarEnv.empty.applyOp (.interp (.E "x" .bool (some 0)))).num_vars_in 0) ∧
    (((VarEnv.empty.applyOp (.interp (.E "x" .bool (some 0)))).avar2lvar.getD 0 []).getD 0 0
        < (VarEnv.empty.applyOp (.interp (.E "x" .bool (some 0)))).num_vars ∧
      (⟨0, 0⟩ : AVar) ∈
        ((VarEnv.empty.applyOp (.interp (.E "x" .bool (some 0)))).lvars.getD
          (((VarEnv.empty.applyOp (.interp (.E "x" .bool (some 0)))).avar2lvar.getD 0 []).getD 0 0)
          default).avars) :=
  ⟨by decide,
    C3_index_invariant _ (Reach.step _ Reach.empty) 0 0 (by decide)⟩

/-! ### Characterizing `interpret_existential` -/

theorem variable_of_eq_some {e : VarEnv} {x : String} {v : Variable}
    (h : e.variable_of x = some v) :
    ∃ i, e.lvar_index_of x = some i ∧ i < e.lvars.length ∧
      e.lvars.getD i default = v := by
  rw [VarEnv.variable_of] at h
  rcases Option.map_eq_some'.mp h with ⟨i, hi, hv⟩
  exact ⟨i, hi, lvar_index_of_list_lt hi, hv⟩

theorem variable_of_eq_none {e : VarEnv} {x : String}
    (h : e.variable_of x = none) : e.lvar_index_of x = none := by
  rw [VarEnv.variable_of] at h
  exact Option.map_eq_none'.mp h

theorem avar_of_append_self (v : Variable) (aty vid : Nat)
    (h : v.avar_of aty = none) :
    Variable.avar_of { v with avars := v.avars ++ [⟨aty, vid⟩] } aty
      = some ⟨aty, vid⟩ := by
  unfold Variable.avar_of at h ⊢
  rw [List.find?_append, h]
  simp

/-- When the row exists and `name` already owns a handle in `aty`,
`extends_vars` changes nothing and returns the existing handle. -/
theorem extends_vars_of_found (e : VarEnv) (D : Nat) (x : String) (S : SortTy)
    (i : Nat) (av : AVar) (hlt : D < e.num_abstract_doms)
    (hidx : e.lvar_index_of x = some i)
    (hav : (e.lvars.getD i default).avar_of D = some av) :
    e.extends_vars D x S = (e, av) := by
  simp only [VarEnv.extends_vars, extends_abstract_doms_of_lt e D hlt, hidx, hav]

/-- When the row exists, `name` is declared with the matching sort and it
already owns a handle in `D`, `interpret_existential` is an idempotent
success. -/
theorem interpret_existential_of_found (e : VarEnv) (x : String) (S : SortTy)
    (D : Nat) (i : Nat) (av : AVar) (hlt : D < e.num_abstract_doms)
    (hidx : e.lvar_index_of x = some i)
    (hsort : (e.lvars.getD i default).sort = S)
    (hav : (e.lvars.getD i default).avar_of D = some av) :
    e.interpret_existential x S (some D) = (.ok av, e) := by
  have hvar : e.variable_of x = some (e.lvars.getD i default) := by
    rw [VarEnv.variable_of, hidx]
    rfl
  simp only [VarEnv.interpret_existential, hvar]
  rw [if_neg (fun hne => hne hsort), extends_vars_of_found e D x S i av hlt hidx hav]

/-- Redeclaring `(x, S, D)` right after a successful declaration of
`(x, S, D)` returns the same handle and leaves the environment unchanged. -/
theorem interpret_existential_idem (e : VarEnv) (x : String) (S : SortTy)
    (D : Nat) (h1 : AVar) (e1 : VarEnv)
    (h : e.interpret_existential x S (some D) = (.ok h1, e1)) :
    e1.interpret_existential x S (some D) = (.ok h1, e1) := by
  simp only [VarEnv.interpret_existential] at h
  cases hv : e.variable_of x with
  | some v =>
    simp only [hv] at h
    by_cases hS : v.sort = S
    · rw [if_neg (fun hne => hne hS)] at h
      injection h with h3 h4
      injection h3 with h5
      subst h4
      subst h5
      obtain ⟨i, hidx0, hilt, hvi⟩ := variable_of_eq_some hv
      have hidx : (e.extends_abstract_doms D).lvar_index_of x = some i := hidx0
      have hDlt : D < (e.extends_abstract_doms D).num_abstract_doms :=
        extends_abstract_doms_aty_lt e D
      cases hav : v.avar_of D with
      | some av =>
        have hev : e.extends_vars D x S = (e.extends_abstract_doms D, av) := by
          simp only [VarEnv.extends_vars, extends_abstract_doms_lvars, hidx,
            hvi, hav]
        rw [hev]
        exact interpret_existential_of_found _ x S D i av hDlt hidx
          (by rw [extends_abstract_doms_lvars, hvi, hS])
          (by rw [extends_abstract_doms_lvars, hvi, hav])
      | none =>
        have hev : e.extends_vars D x S =
            (⟨(e.extends_abstract_doms D).lvars.set i
                { v with avars := v.avars
                  ++ [⟨D, ((e.extends_abstract_doms D).avar2lvar.getD D []).length⟩] },
              (e.extends_abstract_doms D).avar2lvar.set D
                ((e.extends_abstract_doms D).avar2lvar.getD D [] ++ [i])⟩,
              ⟨D, ((e.extends_abstract_doms D).avar2lvar.getD D []).length⟩) := by
          simp only [VarEnv.extends_vars, extends_abstract_doms_lvars, hidx,
            hvi, hav]
        rw [hev]
        have hilt2 : i < (e.extends_abstract_doms D).lvars.length := hilt
        refine interpret_existential_of_found _ x S D i _ ?_ ?_ ?_ ?_
        · show D < ((e.extends_abstract_doms D).avar2lvar.set D _).length
          rw [List.length_set]
          exact hDlt
        · show lvar_index_of_list x ((e.extends_abstract_doms D).lvars.set i _) = some i
          rw [lvar_index_of_list_set (by rw [extends_abstract_doms_lvars, hvi])]
          exact hidx
        · show ((((e.extends_abstract_doms D).lvars.set i _).getD i default)).sort = S
          rw [lvars_set_getD _ _ _ hilt2, if_pos rfl]
          exact hS
        · show ((((e.extends_abstract_doms D).lvars.set i _).getD i default)).avar_of D
            = some _
          rw [lvars_set_getD _ _ _ hilt2, if_pos rfl]
          exact avar_of_append_self v D _ hav
    · rw [if_pos hS] at h
      simp at h
  | none =>
    simp only [hv] at h
    injection h with h3 h4
    injection h3 with h5
    subst h4
    subst h5
    have hidx0 : e.lvar_index_of x = none := variable_of_eq_none hv
    have hidx : (e.extends_abstract_doms D).lvar_index_of x = none := hidx0
    have hDlt : D < (e.extends_abstract_doms D).num_abstract_doms :=
      extends_abstract_doms_aty_lt e D
    have hev : e.extends_vars D x S =
        (⟨(e.extends_abstract_doms D).lvars
            ++ [⟨x, S, [⟨D, ((e.extends_abstract_doms D).avar2lvar.getD D []).length⟩]⟩],
          (e.extends_abstract_doms D).avar2lvar.set D
            ((e.extends_abstract_doms D).avar2lvar.getD D []
              ++ [(e.extends_abstract_doms D).lvars.length])⟩,
          ⟨D, ((e.extends_abstract_doms D).avar2lvar.getD D []).length⟩) := by
      simp only [VarEnv.extends_vars, hidx]
    rw [hev]
    refine interpret_existential_of_found _ x S D
      (e.extends_abstract_doms D).lvars.length _ ?_ ?_ ?_ ?_
    · show D < ((e.extends_abstract_doms D).avar2lvar.set D _).length
      rw [List.length_set]
      exact hDlt
    · show lvar_index_of_list x ((e.extends_abstract_doms D).lvars ++ _)
        = some (e.extends_abstract_doms D).lvars.length
      exact lvar_index_of_list_append_none hidx rfl
    · show ((((e.extends_abstract_doms D).lvars ++ _).getD
        (e.extends_abstract_doms D).lvars.length default)).sort = S
      rw [getD_append_length]
    · show ((((e.extends_abstract_doms D).lvars ++ _).getD
        (e.extends_abstract_doms D).lvars.length default)).avar_of D = some _
      rw [getD_append_length]
      simp [Variable.avar_of]

/-- C8: declaring `(x, S, D)` twice in succession returns the same handle
both times, and the second call does not grow `num_vars`. -/
theorem C8_idempotent_redeclaration (e : VarEnv) (x : String) (S : SortTy)
    (D : Nat) (h1 : AVar) (e1 : VarEnv)
    (h : e.interpret_existential x S (some D) = (.ok h1, e1)) :
    (e1.interpret_existential x S (some D)).1 = .ok h1 ∧
    (e1.interpret_existential x S (some D)).2.num_vars = e1.num_vars := by
  rw [interpret_existential_idem e x S D h1 e1 h]
  exact ⟨rfl, rfl⟩

/-- Witness for C8: declaring `("x", Bool, 0)` twice from the empty
environment. -/
theorem C8_idempotent_redeclaration_witness :
    ((⟨[⟨"x", .bool, [⟨0, 0⟩]⟩], [[0]]⟩ : VarEnv).interpret_existential
        "x" .bool (some 0)).1 = .ok ⟨0, 0⟩ ∧
    ((⟨[⟨"x", .bool, [⟨0, 0⟩]⟩], [[0]]⟩ : VarEnv).interpret_existential
        "x" .bool (some 0)).2.num_vars
      = (⟨[⟨"x", .bool, [⟨0, 0⟩]⟩], [[0]]⟩ : VarEnv).num_vars :=
  C8_idempotent_redeclaration VarEnv.empty "x" .bool 0 ⟨0, 0⟩
    ⟨[⟨"x", .bool, [⟨0, 0⟩]⟩], [[0]]⟩ rfl

end VarEnv

instance {ε α : Type} [DecidableEq ε] [DecidableEq α] :
    DecidableEq (Except ε α) := fun x y =>
  match x, y with
  | .ok a, .ok b =>
    if h : a = b then isTrue (h ▸ rfl) else isFalse (fun hc => h (Except.ok.inj hc))
  | .ok _, .error _ => isFalse (fun hc => nomatch hc)
  | .error _, .ok _ => isFalse (fun hc => nomatch hc)
  | .error a, .error b =>
    if h : a = b then isTrue (h ▸ rfl) else isFalse (fun hc => h (Except.error.inj hc))

namespace VarEnv

/-- C2 counterexample: after declaring `("x", Bool, 0)`, the record of `"x"`
already owns the handle `(0, 0)` in the target domain `0`, yet redeclaring
`"x"` in domain `0` with the different sort `Int` fails with the
sort-mismatch error instead of returning that handle unchanged: the
sort check is applied before the same-domain-handle check. -/
theorem C2_counterexample :
    ((VarEnv.empty.interpret_existential "x" .bool (some 0)).2.variable_of "x"
      = some ⟨"x", .bool, [⟨0, 0⟩]⟩) ∧
    ((⟨"x", SortTy.bool, [⟨0, 0⟩]⟩ : Variable).avar_of 0 = some ⟨0, 0⟩) ∧
    (((VarEnv.empty.interpret_existential "x" .bool (some 0)).2.interpret_existential
        "x" .int (some 0)).1 = .error .sortMismatch) ∧
    ¬ (((VarEnv.empty.interpret_existential "x" .bool (some 0)).2.interpret_existential
        "x" .int (some 0)).1 = .ok ⟨0, 0⟩) := by
  refine ⟨by decide, by decide, by decide, by decide⟩

/-- C2 (amended): for an existential declaration `(x, S, D)` whose name
already has a record `v`, the checks are applied in this order: if the
record's stored sort differs from `S`, the call fails with the sort-mismatch
error (even when the record already owns a handle in `D`); otherwise, if the
record already owns a handle in `D`, that handle is returned unchanged;
otherwise a new handle `(D, next_slot)` is appended both to the record's
handle list and to the domain's index and returned. -/
theorem C2_existential_check_order (e : VarEnv) (x : String) (S : SortTy)
    (D : Nat) (v : Variable) (hv : e.variable_of x = some v) :
    (v.sort ≠ S →
      e.interpret_existential x S (some D) = (.error .sortMismatch, e)) ∧
    (v.sort = S → ∀ av, v.avar_of D = some av →
      e.interpret_existential x S (some D)
        = (.ok av, e.extends_abstract_doms D)) ∧
    (v.sort = S → v.avar_of D = none →
      (e.interpret_existential x S (some D)).1 = .ok ⟨D, e.num_vars_in D⟩ ∧
      (e.interpret_existential x S (some D)).2.num_vars = e.num_vars ∧
      (e.interpret_existential x S (some D)).2.variable_of x
        = some { v with avars := v.avars ++ [⟨D, e.num_vars_in D⟩] } ∧
      (e.interpret_existential x S (some D)).2.num_vars_in D
        = e.num_vars_in D + 1) := by
  obtain ⟨i, hidx0, hilt, hvi⟩ := variable_of_eq_some hv
  have hidx : (e.extends_abstract_doms D).lvar_index_of x = some i := hidx0
  have hDlt : D < (e.extends_abstract_doms D).num_abstract_doms :=
    extends_abstract_doms_aty_lt e D
  have hrow : (e.extends_abstract_doms D).avar2lvar.getD D []
      = e.avar2lvar.getD D [] := extends_abstract_doms_getD e D D
  refine ⟨?_, ?_, ?_⟩
  · intro hne
    simp only [VarEnv.interpret_existential, hv]
    rw [if_pos hne]
  · intro hS av hav
    simp only [VarEnv.interpret_existential, hv]
    rw [if_neg (fun hne => hne hS)]
    have hev : e.extends_vars D x S = (e.extends_abstract_doms D, av) := by
      simp only [VarEnv.extends_vars, extends_abstract_doms_lvars, hidx,
        hvi, hav]
    rw [hev]
  · intro hS hav
    have hlen : ((e.extends_abstract_doms D).avar2lvar.getD D []).length
        = e.num_vars_in D := by rw [hrow]; rfl
    have hilt2 : i < (e.extends_abstract_doms D).lvars.length := hilt
    have hDlt2 : D < (e.extends_abstract_doms D).avar2lvar.length := hDlt
    have hidx2 : lvar_index_of_list x (e.extends_abstract_doms D).lvars
        = some i := hidx
    simp only [VarEnv.interpret_existential, hv]
    rw [if_neg (fun hne => hne hS)]
    have hev : e.extends_vars D x S =
        (⟨(e.extends_abstract_doms D).lvars.set i
            { v with avars := v.avars
              ++ [⟨D, ((e.extends_abstract_doms D).avar2lvar.getD D []).length⟩] },
          (e.extends_abstract_doms D).avar2lvar.set D
            ((e.extends_abstract_doms D).avar2lvar.getD D [] ++ [i])⟩,
          ⟨D, ((e.extends_abstract_doms D).avar2lvar.getD D []).length⟩) := by
      simp only [VarEnv.extends_vars, extends_abstract_doms_lvars, hidx,
        hvi, hav]
    rw [hev]
    have hvar2 : (VarEnv.mk
        ((e.extends_abstract_doms D).lvars.set i
          { v with avars := v.avars
            ++ [⟨D, ((e.extends_abstract_doms D).avar2lvar.getD D []).length⟩] })
        ((e.extends_abstract_doms D).avar2lvar.set D
          ((e.extends_abstract_doms D).avar2lvar.getD D [] ++ [i]))).variable_of x
        = some { v with avars := v.avars ++ [⟨D, e.num_vars_in D⟩] } := by
      rw [VarEnv.variable_of, VarEnv.lvar_index_of, mk_lvars,
        lvar_index_of_list_set (by rw [extends_abstract_doms_lvars, hvi]), hidx2]
      simp only [Option.map_some', mk_lvars]
      rw [lvars_set_getD _ _ _ hilt2, if_pos rfl, hlen]
    refine ⟨?_, ?_, ?_, ?_⟩
    · show Except.ok
          (⟨D, ((e.extends_abstract_doms D).avar2lvar.getD D []).length⟩ : AVar)
        = Except.ok (⟨D, e.num_vars_in D⟩ : AVar)
      rw [hlen]
    · show ((e.extends_abstract_doms D).lvars.set i
          { v with avars := v.avars
            ++ [⟨D, ((e.extends_abstract_doms D).avar2lvar.getD D []).length⟩] }).length
        = e.num_vars
      rw [List.length_set]
      rfl
    · exact hvar2
    · show (((e.extends_abstract_doms D).avar2lvar.set D
          ((e.extends_abstract_doms D).avar2lvar.getD D [] ++ [i])).getD D []).length
        = e.num_vars_in D + 1
      rw [rows_set_getD _ _ _ hDlt2 D, if_pos rfl, List.length_append, hlen]
      rfl

/-- Witness for C2 (amended): declaring `("x", Bool, 0)` and then
`("x", Int, 0)` hits the sort-mismatch arm. -/
theorem C2_existential_check_order_witness :
    (VarEnv.empty.interpret_existential "x" .bool (some 0)).2.interpret_existential
        "x" .int (some 0)
      = (.error .sortMismatch, (VarEnv.empty.interpret_existential "x" .bool (some 0)).2) :=
  (C2_existential_check_order
    (VarEnv.empty.interpret_existential "x" .bool (some 0)).2
    "x" .int 0 ⟨"x", .bool, [⟨0, 0⟩]⟩ (by decide)).1 (by decide)

/-- Well-formedness: every handle owned by a record points into an existing
index row.  Every environment reachable through `interpret` satisfies it. -/
def EnvWF (e : VarEnv) : Prop :=
  ∀ v ∈ e.lvars, ∀ av ∈ v.avars, av.aty < e.num_abstract_doms

/-- C10: interpreting an existential declaration typed with a domain id `D`
at or beyond the current number of domains never fails for that reason: the
environment silently appends empty index rows until domain `D` exists, so
that afterwards `num_abstract_doms = D + 1` and the returned handle is
`(D, num_vars_in D - 1)` (the row of `D` being fresh, `num_vars_in D = 1`). -/
theorem C10_fresh_domain_extension (e : VarEnv) (x : String) (S : SortTy)
    (D : Nat) (hwf : EnvWF e) (hD : e.num_abstract_doms ≤ D)
    (hsort : ∀ v, e.variable_of x = some v → v.sort = S) :
    (e.interpret_existential x S (some D)).1
      = .ok ⟨D, (e.interpret_existential x S (some D)).2.num_vars_in D - 1⟩ ∧
    (e.interpret_existential x S (some D)).2.num_abstract_doms = D + 1 ∧
    (e.interpret_existential x S (some D)).2.num_vars_in D = 1 := by
  have hD2 : e.avar2lvar.length ≤ D := hD
  have hrow0 : e.avar2lvar.getD D [] = [] :=
    List.getD_eq_default _ _ (by omega)
  have hrowD : (e.extends_abstract_doms D).avar2lvar.getD D [] = [] := by
    rw [extends_abstract_doms_getD]
    exact hrow0
  have hdoms : (e.extends_abstract_doms D).avar2lvar.length = D + 1 := by
    show (e.avar2lvar ++ List.replicate (D + 1 - e.avar2lvar.length) []).length
      = D + 1
    rw [List.length_append, List.length_replicate]
    omega
  have hDlt2 : D < (e.extends_abstract_doms D).avar2lvar.length := by omega
  cases hv : e.variable_of x with
  | some v =>
    have hS := hsort v hv
    obtain ⟨i, hidx0, hilt, hvi⟩ := variable_of_eq_some hv
    have hidx : (e.extends_abstract_doms D).lvar_index_of x = some i := hidx0
    have hvmem : v ∈ e.lvars := by
      rw [← hvi, List.getD_eq_getElem _ _ hilt]
      exact List.getElem_mem hilt
    have hav : v.avar_of D = none := by
      unfold Variable.avar_of
      rw [List.find?_eq_none]
      intro av hmem
      have h2 := hwf v hvmem av hmem
      simp only [VarEnv.num_abstract_doms] at h2
      simp only [beq_iff_eq]
      omega
    have hev : e.extends_vars D x S =
        (⟨(e.extends_abstract_doms D).lvars.set i
            { v with avars := v.avars
              ++ [⟨D, ((e.extends_abstract_doms D).avar2lvar.getD D []).length⟩] },
          (e.extends_abstract_doms D).avar2lvar.set D
            ((e.extends_abstract_doms D).avar2lvar.getD D [] ++ [i])⟩,
          ⟨D, ((e.extends_abstract_doms D).avar2lvar.getD D []).length⟩) := by
      simp only [VarEnv.extends_vars, extends_abstract_doms_lvars, hidx,
        hvi, hav]
    rw [hrowD] at hev
    simp only [List.length_nil, List.nil_append] at hev
    simp only [VarEnv.interpret_existential, hv]
    rw [if_neg (fun hne => hne hS), hev]
    have hnv : (VarEnv.mk
        ((e.extends_abstract_doms D).lvars.set i
          { v with avars := v.avars ++ [⟨D, 0⟩] })
        ((e.extends_abstract_doms D).avar2lvar.set D [i])).num_vars_in D = 1 := by
      show (((e.extends_abstract_doms D).avar2lvar.set D [i]).getD D []).length = 1
      rw [rows_set_getD _ _ _ hDlt2 D, if_pos rfl]
      rfl
    refine ⟨?_, ?_, ?_⟩
    · show Except.ok (⟨D, 0⟩ : AVar) = Except.ok (⟨D, (VarEnv.mk
          ((e.extends_abstract_doms D).lvars.set i
            { v with avars := v.avars ++ [⟨D, 0⟩] })
          ((e.extends_abstract_doms D).avar2lvar.set D [i])).num_vars_in D - 1⟩ : AVar)
      rw [hnv]
    · show ((e.extends_abstract_doms D).avar2lvar.set D [i]).length = D + 1
      rw [List.length_set]
      exact hdoms
    · exact hnv
  | none =>
    have hidx0 : e.lvar_index_of x = none := variable_of_eq_none hv
    have hidx : (e.extends_abstract_doms D).lvar_index_of x = none := hidx0
    have hev : e.extends_vars D x S =
        (⟨(e.extends_abstract_doms D).lvars
            ++ [⟨x, S, [⟨D, ((e.extends_abstract_doms D).avar2lvar.getD D []).length⟩]⟩],
          (e.extends_abstract_doms D).avar2lvar.set D
            ((e.extends_abstract_doms D).avar2lvar.getD D []
              ++ [(e.extends_abstract_doms D).lvars.length])⟩,
          ⟨D, ((e.extends_abstract_doms D).avar2lvar.getD D []).length⟩) := by
      simp only [VarEnv.extends_vars, hidx]
    rw [hrowD] at hev
    simp only [List.length_nil, List.nil_append] at hev
    simp only [VarEnv.interpret_existential, hv]
    rw [hev]
    have hnv : (VarEnv.mk
        ((e.extends_abstract_doms D).lvars ++ [⟨x, S, [⟨D, 0⟩]⟩])
        ((e.extends_abstract_doms D).avar2lvar.set D
          [(e.extends_abstract_doms D).lvars.length])).num_vars_in D = 1 := by
      show (((e.extends_abstract_doms D).avar2lvar.set D
        [(e.extends_abstract_doms D).lvars.length]).getD D []).length = 1
      rw [rows_set_getD _ _ _ hDlt2 D, if_pos rfl]
      rfl
    refine ⟨?_, ?_, ?_⟩
    · show Except.ok (⟨D, 0⟩ : AVar) = Except.ok (⟨D, (VarEnv.mk
          ((e.extends_abstract_doms D).lvars ++ [⟨x, S, [⟨D, 0⟩]⟩])
          ((e.extends_abstract_doms D).avar2lvar.set D
            [(e.extends_abstract_doms D).lvars.length])).num_vars_in D - 1⟩ : AVar)
      rw [hnv]
    · show ((e.extends_abstract_doms D).avar2lvar.set D
          [(e.extends_abstract_doms D).lvars.length]).length = D + 1
      rw [List.length_set]
      exact hdoms
    · exact hnv

/-- Witness for C10: declaring `("x", Bool, 2)` on the empty environment
creates domains `0`, `1`, `2` and returns the handle `(2, 0)`. -/
theorem C10_fresh_domain_extension_witness :
    ((VarEnv.empty.interpret_existential "x" .bool (some 2)).1
      = .ok ⟨2, (VarEnv.empty.interpret_existential "x" .bool (some 2)).2.num_vars_in 2 - 1⟩ ∧
    (VarEnv.empty.interpret_existential "x" .bool (some 2)).2.num_abstract_doms = 2 + 1 ∧
    (VarEnv.empty.interpret_existential "x" .bool (some 2)).2.num_vars_in 2 = 1) :=
  C10_fresh_domain_extension VarEnv.empty "x" .bool 2
    (fun v hv => nomatch hv) (by decide)
    (fun v hv => nomatch hv)

/-- C4: for every name-occurrence formula: it fails with the
undeclared-variable error when the name has no record; with a target domain
it returns the record's handle there and fails with the
undeclared-in-domain error when there is none; without a target domain it
succeeds with the sole handle exactly when the record has one handle, and
fails with the ambiguous-occurrence error otherwise. -/
theorem C4_occurrence_resolution (e : VarEnv) (x : String) (oty : Option Nat) :
    (e.variable_of x = none →
      e.interpret_lv x oty = .error .undeclaredVariable) ∧
    (∀ v d, e.variable_of x = some v → oty = some d →
      (∀ av, v.avar_of d = some av → e.interpret_lv x oty = .ok av) ∧
      (v.avar_of d = none →
        e.interpret_lv x oty = .error .undeclaredInDomain)) ∧
    (∀ v, e.variable_of x = some v → oty = none →
      (∀ av, v.avars = [av] → e.interpret_lv x oty = .ok av) ∧
      (v.avars.length ≠ 1 →
        e.interpret_lv x oty = .error .ambiguousOccurrence)) := by
  refine ⟨?_, ?_, ?_⟩
  · intro h
    simp only [VarEnv.interpret_lv, h]
  · intro v d hv hd
    subst hd
    refine ⟨?_, ?_⟩
    · intro av hav
      simp only [VarEnv.interpret_lv, hv, hav]
    · intro hav
      simp only [VarEnv.interpret_lv, hv, hav]
  · intro v hv hd
    subst hd
    refine ⟨?_, ?_⟩
    · intro av hav
      simp [VarEnv.interpret_lv, hv, hav]
    · intro hlen
      simp only [VarEnv.interpret_lv, hv]
      rw [if_neg hlen]

/-- Witness for C4: an occurrence of an undeclared name on the empty
environment. -/
theorem C4_occurrence_resolution_witness :
    VarEnv.empty.interpret_lv "x" none = .error .undeclaredVariable :=
  (C4_occurrence_resolution VarEnv.empty "x" none).1 rfl

end VarEnv

/-! ### The two-valued "unknown" Boolean universe `PreB` (from `b.hpp`) -/

namespace PreB

/-- The distinct interpretation errors in `PreB::interpret_tell`, one per
`INTERPRETATION_ERROR` message in the source. -/
inductive Error where
  | trueOverapproximated
  | falseOverapproximatedDual
  | nonBoolConstant
deriving DecidableEq, Repr

def bot : Bool := false

def top : Bool := true

def join (x y : Bool) : Bool := x || y

def meet (x y : Bool) : Bool := x && y

def order (x y : Bool) : Bool := !x || y

def strict_order (x y : Bool) : Bool := !x && y

def next (_ : Bool) : Bool := true

def prev (_ : Bool) : Bool := false

/-- `PreB::interpret_tell`: on a Boolean constant, reject the constant that
would be overapproximated by the top element (`true` normally, `false` under
`dualize`); otherwise succeed with the constant's value.  Any non-Boolean
formula is rejected. -/
def interpret_tell (f : Formula) (dualize : Bool) : Except Error Bool :=
  match f with
  | .B b =>
    if dualize then
      if !b then .error .falseOverapproximatedDual else .ok b
    else
      if b then .error .trueOverapproximated else .ok b
  | _ => .error .nonBoolConstant

/-- `PreB::interpret_ask` is defined by delegating to `interpret_tell`. -/
def interpret_ask (f : Formula) (dualize : Bool) : Except Error Bool :=
  interpret_tell f dualize

end PreB

/-- C5: in `PreB` (bottom denotes exactly false, top denotes either truth
value), telling the constant `false` with `dualize = false` succeeds with
value `false`; telling the constant `true` with `dualize = false` fails with
an interpretation error; and `dualize` flips which constant is safe. -/
theorem C5_preb_tell_rejection :
    PreB.interpret_tell (.B false) false = .ok false ∧
    PreB.interpret_tell (.B true) false = .error .trueOverapproximated ∧
    PreB.interpret_tell (.B true) true = .ok true ∧
    PreB.interpret_tell (.B false) true = .error .falseOverapproximatedDual :=
  ⟨rfl, rfl, rfl, rfl⟩

/-! ### The bounded-progress Boolean universe `PreBInc` (from `pre_zinc.hpp`) -/

namespace PreBInc

def bot : Bool := false

def top : Bool := true

def join (x y : Bool) : Bool := x || y

def meet (x y : Bool) : Bool := x && y

def order (x y : Bool) : Bool := !x || y

def strict_order (x y : Bool) : Bool := !x && y

def next (_ : Bool) : Bool := true

def prev (_ : Bool) : Bool := false

end PreBInc

/-! ### The integer chain universes (from `z.hpp`) -/

/-- The sign restriction of a `Z` universe. -/
inductive Sign where
  | SNEG
  | SPOS
  | SIGNED
  | BOUNDED
deriving DecidableEq, Repr

/-- `Limits<int>::bot()`: the smallest 32-bit machine integer. -/
def intLimitsBot : Int := -(2 ^ 31)

/-- `Limits<int>::top()`: the largest 32-bit machine integer. -/
def intLimitsTop : Int := 2 ^ 31 - 1

namespace ZIncUniverse

/-- `ZIncUniverse::bot` over `int`. -/
def bot (s : Sign) : Int :=
  match s with
  | .SPOS => 0
  | _ => intLimitsBot

/-- `ZIncUniverse::top` over `int`. -/
def top (s : Sign) : Int :=
  match s with
  | .SNEG => 0
  | _ => intLimitsTop

/-- `ZIncUniverse::next` over `int`: the fixed points are `top`, and also
`bot` when the sign is `SIGNED` or `SNEG` (the bottoms that stand for an
infinity sentinel); elsewhere the successor `i + 1`. -/
def next (s : Sign) (i : Int) : Int :=
  if i = top s ∨ (i = bot s ∧ (s = .SIGNED ∨ s = .SNEG)) then i else i + 1

def join (x y : Int) : Int := max x y

def meet (x y : Int) : Int := min x y

def order (x y : Int) : Bool := decide (x ≤ y)

def strict_order (x y : Int) : Bool := decide (x < y)

end ZIncUniverse

/-- `y` covers `x` in the integer order. -/
def ZCovers (x y : Int) : Prop :=
  x < y ∧ ∀ z, ¬(x < z ∧ z < y)

/-- `y` covers `x` in a two-element Boolean universe with the given strict
order, and is its only cover. -/
def BoolCoversUniq (strict : Bool → Bool → Bool) (x y : Bool) : Prop :=
  (strict x y = true ∧ ∀ z, ¬(strict x z = true ∧ strict z y = true)) ∧
  ∀ z, (strict x z = true ∧ ∀ w, ¬(strict x w = true ∧ strict w z = true)) → z = y

/-- C7 counterexample: in the increasing integer universe with sign
`SIGNED`, `next(bot)` returns `bot` unchanged although `bot` differs from
`top` and is not a cover of itself, so `next` does not return the unique
cover of `bot` nor is `bot` equal to `top`. -/
theorem C7_counterexample :
    ¬ ((ZIncUniverse.bot .SIGNED = ZIncUniverse.top .SIGNED ∧
        ZIncUniverse.next .SIGNED (ZIncUniverse.bot .SIGNED)
          = ZIncUniverse.bot .SIGNED)
      ∨ ZCovers (ZIncUniverse.bot .SIGNED)
          (ZIncUniverse.next .SIGNED (ZIncUniverse.bot .SIGNED))) := by
  intro h
  cases h with
  | inl h2 => exact absurd h2.1 (by decide)
  | inr h2 =>
    have h3 : ZIncUniverse.next .SIGNED (ZIncUniverse.bot .SIGNED)
        = ZIncUniverse.bot .SIGNED := by decide
    rw [h3] at h2
    exact h2.2 (ZIncUniverse.bot .SIGNED) ⟨h2.1, h2.1⟩

/-- C7 (amended): in the Boolean universes `PreB` and `PreBInc`, `next x`
is the unique cover of `x` or `x` unchanged when `x = top`, and `prev x` is
the unique element `x` covers or `x` unchanged when `x = bot`; in
particular `next false = true`, `next true = true`, `prev true = false`,
`prev false = false`.  In the increasing integer universes, `next x = x`
exactly when `x = top`, or when `x = bot` with sign `SIGNED` or `SNEG`
(bottoms standing for an infinity sentinel); at every other point `next`
returns `x + 1`, the unique cover of `x`. -/
theorem C7_cover_laws :
    (∀ x : Bool, (x = PreB.top ∧ PreB.next x = x) ∨
      BoolCoversUniq PreB.strict_order x (PreB.next x)) ∧
    (∀ x : Bool, (x = PreB.bot ∧ PreB.prev x = x) ∨
      BoolCoversUniq PreB.strict_order (PreB.prev x) x) ∧
    (PreBInc.next false = true ∧ PreBInc.next true = true ∧
      PreBInc.prev true = false ∧ PreBInc.prev false = false) ∧
    (∀ x : Bool, (x = PreBInc.top ∧ PreBInc.next x = x) ∨
      BoolCoversUniq PreBInc.strict_order x (PreBInc.next x)) ∧
    (∀ x : Bool, (x = PreBInc.bot ∧ PreBInc.prev x = x) ∨
      BoolCoversUniq PreBInc.strict_order (PreBInc.prev x) x) ∧
    (∀ (s : Sign) (x : Int),
      ZIncUniverse.next s x = x ↔
        (x = ZIncUniverse.top s ∨
          (x = ZIncUniverse.bot s ∧ (s = .SIGNED ∨ s = .SNEG)))) ∧
    (∀ (s : Sign) (x : Int), x ≠ ZIncUniverse.top s →
      ¬(x = ZIncUniverse.bot s ∧ (s = .SIGNED ∨ s = .SNEG)) →
      ZIncUniverse.next s x = x + 1 ∧
      ZCovers x (ZIncUniverse.next s x) ∧
      ∀ z, ZCovers x z → z = ZIncUniverse.next s x) := by
  refine ⟨by unfold BoolCoversUniq; decide, by unfold BoolCoversUniq; decide,
    by decide, by unfold BoolCoversUniq; decide,
    by unfold BoolCoversUniq; decide, ?_, ?_⟩
  · intro s x
    constructor
    · intro h
      by_cases hc : (x = ZIncUniverse.top s ∨
          (x = ZIncUniverse.bot s ∧ (s = .SIGNED ∨ s = .SNEG)))
      · exact hc
      · rw [ZIncUniverse.next, if_neg hc] at h
        omega
    · intro hc
      rw [ZIncUniverse.next, if_pos hc]
  · intro s x h1 h2
    have hcond : ¬(x = ZIncUniverse.top s ∨
        (x = ZIncUniverse.bot s ∧ (s = .SIGNED ∨ s = .SNEG))) := fun hc =>
      hc.elim h1 h2
    rw [ZIncUniverse.next, if_neg hcond]
    refine ⟨rfl, ⟨by omega, fun z hz => by omega⟩, ?_⟩
    intro z hz
    obtain ⟨hlt, hbet⟩ := hz
    have h3 := hbet (x + 1)
    by_contra hne
    exact h3 ⟨by omega, by omega⟩

/-- Witness for C7 (amended): the integer arm at `s = SPOS`, `x = 0`
(where `bot = 0` is a real element, not a sentinel, and has the cover `1`). -/
theorem C7_cover_laws_witness :
    ZIncUniverse.next .SPOS 0 = 0 + 1 ∧
    ZCovers 0 (ZIncUniverse.next .SPOS 0) ∧
    (∀ z, ZCovers 0 z → z = ZIncUniverse.next .SPOS 0) :=
  C7_cover_laws.2.2.2.2.2.2 .SPOS 0 (by decide) (by decide)

/-! ### The generic dual adapter (from `dual.hpp`) -/

/-- The dual adapter stores one value of the base universe. -/
structure Dual (α : Type) where
  element : α
deriving DecidableEq, Repr

/-- The lattice operations a universe exposes to the adapter. -/
structure LatticeOps (α : Type) where
  bot : α
  top : α
  join : α → α → α
  meet : α → α → α

/-- `Dual<T>`: `bot` stores `T::top()`, `top` stores `T::bot()`, `join`
forwards to the base `meet` and `meet` to the base `join` on the stored
values. -/
def dualOps {α : Type} (L : LatticeOps α) : LatticeOps (Dual α) where
  bot := ⟨L.top⟩
  top := ⟨L.bot⟩
  join := fun a b => ⟨L.meet a.element b.element⟩
  meet := fun a b => ⟨L.join a.element b.element⟩

/-- C9: the dual adapter's `bot` stores the base `top` and its `top` the
base `bot`; its `join` forwards to the base `meet` and its `meet` to the
base `join` on the stored values; and applying the adapter twice yields the
original value and the original operations on the underlying values. -/
theorem C9_dual_adapter (α : Type) (L : LatticeOps α) :
    ((dualOps L).bot.element = L.top ∧ (dualOps L).top.element = L.bot) ∧
    (∀ a b : Dual α,
      ((dualOps L).join a b).element = L.meet a.element b.element ∧
      ((dualOps L).meet a b).element = L.join a.element b.element) ∧
    (∀ x : α, (Dual.mk (Dual.mk x)).element.element = x) ∧
    ((dualOps (dualOps L)).bot.element.element = L.bot ∧
      (dualOps (dualOps L)).top.element.element = L.top ∧
      ∀ a b : Dual (Dual α),
        ((dualOps (dualOps L)).join a b).element.element
          = L.join a.element.element b.element.element ∧
        ((dualOps (dualOps L)).meet a b).element.element
          = L.meet a.element.element b.element.element) :=
  ⟨⟨rfl, rfl⟩, fun _ _ => ⟨rfl, rfl⟩, fun _ => rfl,
    ⟨rfl, rfl, fun _ _ => ⟨rfl, rfl⟩⟩⟩

/-! ### Diagnostics (from `iresult.hpp`) -/

/-- The error/warning representation `IError<F>`: fatal flag, abstract
domain name, description, abstract type of the error and sub-errors.
(The offending formula copy is not needed by the mapping claims.) -/
inductive IErrorT where
  | mk (fatal : Bool) (ad_name : String) (description : String)
      (aty : Option Nat) (suberrors : List IErrorT)

/-- `IResult<T, F>`: either a value or an error, plus the accumulated
warnings. -/
structure IResult (T : Type) where
  result : Except IErrorT T
  warnings : List IErrorT

/-- `IResult::map_result`: convert the variant through a value conversion,
passing an error through untouched. -/
def map_result {U T : Type} (g : U → T) : Except IErrorT U → Except IErrorT T
  | .ok u => .ok (g u)
  | .error err => .error err

/-- The converting constructor `IResult(IResult<U, F>&&)`: converts the
variant through `map_result` and moves the warnings. -/
def IResult.convert {U T : Type} (g : U → T) (r : IResult U) : IResult T :=
  ⟨map_result g r.result, r.warnings⟩

/-- The member `IResult::map(U&& data2)`: builds a fresh successful result
holding `data2` and moves the warnings over. -/
def IResult.map {T U : Type} (r : IResult T) (data2 : U) : IResult U :=
  ⟨.ok data2, r.warnings⟩

/-- C6 counterexample: mapping an error-holding result through the member
`map` yields a success holding the supplied value; the mapped result does
not hold the original error, contradicting the claim that the error arm is a
no-op pass-through that never produces a success. -/
theorem C6_counterexample :
    ((⟨.error (.mk true "a" "b" none []), []⟩ : IResult Nat).map (7 : Nat)).result
        = .ok 7 ∧
    ¬(((⟨.error (.mk true "a" "b" none []), []⟩ : IResult Nat).map (7 : Nat)).result
        = .error (.mk true "a" "b" none [])) :=
  ⟨rfl, fun hc => nomatch hc⟩

/-- C6 (amended): converting or mapping a diagnostic result to another
value type leaves its warnings unchanged; the converting constructor passes
an error through untouched; the member `map`, however, always produces a
success holding the supplied value, even when the receiver held an error. -/
theorem C6_result_mapping (T U : Type) (g : T → U) (r : IResult T) :
    ((r.convert g).warnings = r.warnings) ∧
    (∀ err, r.result = .error err → (r.convert g).result = .error err) ∧
    (∀ u : U, (r.map u).warnings = r.warnings ∧ (r.map u).result = .ok u) := by
  refine ⟨rfl, ?_, fun u => ⟨rfl, rfl⟩⟩
  intro err herr
  show map_result g r.result = .error err
  rw [herr]
  rfl

/-- Witness for C6 (amended): converting a concrete error result passes the
error through. -/
theorem C6_result_mapping_witness :
    ((⟨.error (.mk true "a" "b" none []), []⟩ : IResult Nat).convert
        (fun n : Nat => n + 1)).result = .error (.mk true "a" "b" none []) :=
  (C6_result_mapping Nat Nat (fun n => n + 1)
    ⟨.error (.mk true "a" "b" none []), []⟩).2.1 _ rfl

end LalaCore
